import Mathlib

/-!
Shallow embedding of the swipe-and-clean photo-triage core:
the Decision Store (`store/DeletedContext.tsx`), the Review Session
(`screens/ReviewScreen.tsx`) and the Clustering Engine
(`utils/photoAnalysis.ts`), together with theorems checking the
natural-language specification against this embedding.

Persistence (`AsyncStorage`) is fire-and-forget and never affects the
in-memory transition, so it is not modelled; each operation is the pure
in-memory state transition performed by the corresponding source function.
-/

namespace SwipeAndClean

/-- `StoredAsset` from `store/DeletedContext.tsx`: the snapshot of a photo
kept in the store and the review queue. -/
structure StoredAsset where
  id : String
  uri : String
  filename : String
  creationTime : Int
  width : Int
  height : Int
deriving DecidableEq

/-- The tag of `LastAction` (`type: 'kept' | 'deleted'`). -/
inductive ActionType where
  | kept
  | deleted
deriving DecidableEq

/-- `LastAction` from `store/DeletedContext.tsx`: the single undo slot. -/
structure LastAction where
  type : ActionType
  asset : StoredAsset
deriving DecidableEq

/-- The in-memory state of the Decision Store (`DeletedProvider`):
the deleted-asset list, the kept-id list and the undo slot. -/
structure Store where
  deletedAssets : List StoredAsset
  keptIds : List String
  lastAction : Option LastAction
deriving DecidableEq

/-- The store state on a fresh start with nothing persisted. -/
def emptyStore : Store := ⟨[], [], none⟩

/-- The ids of the assets currently in the deleted list. -/
def deletedIds (s : Store) : List String :=
  s.deletedAssets.map (fun a => a.id)

/-- `addDeleted` : prepend the asset to the deleted list and set the undo
slot to a deleted action. -/
def addDeleted (asset : StoredAsset) (s : Store) : Store :=
  { s with
    deletedAssets := asset :: s.deletedAssets
    lastAction := some ⟨ActionType.deleted, asset⟩ }

/-- `addKept` : append the asset's id to the kept list and set the undo
slot to a kept action. -/
def addKept (asset : StoredAsset) (s : Store) : Store :=
  { s with
    keptIds := s.keptIds ++ [asset.id]
    lastAction := some ⟨ActionType.kept, asset⟩ }

/-- `recoverAsset` : drop every deleted entry with the given id; the undo
slot is untouched. -/
def recoverAsset (i : String) (s : Store) : Store :=
  { s with deletedAssets := s.deletedAssets.filter (fun a => a.id != i) }

/-- `recoverAll` : empty the deleted list; the undo slot is untouched. -/
def recoverAll (s : Store) : Store :=
  { s with deletedAssets := [] }

/-- `removeFromDeleted` : bulk-drop the deleted entries whose id is in
`ids` (used after a permanent purge). -/
def removeFromDeleted (ids : List String) (s : Store) : Store :=
  { s with deletedAssets := s.deletedAssets.filter (fun a => !(ids.contains a.id)) }

/-- `undoLast` : if the undo slot is set, filter the last-actioned id out
of whichever list the action targeted and clear the slot; otherwise do
nothing. -/
def undoLast (s : Store) : Store :=
  match s.lastAction with
  | none => s
  | some la =>
    match la.type with
    | ActionType.deleted =>
      { s with
        deletedAssets := s.deletedAssets.filter (fun a => a.id != la.asset.id)
        lastAction := none }
    | ActionType.kept =>
      { s with
        keptIds := s.keptIds.filter (fun i => i != la.asset.id)
        lastAction := none }

/-! ### Review Session (`screens/ReviewScreen.tsx`) -/

/-- The review-session state: the queue of undecided photos, the reviewed
counter, and the Decision Store it records into. -/
structure Session where
  queue : List StoredAsset
  reviewed : Nat
  store : Store
deriving DecidableEq

/-- `advanceQueue` : drop the head of the queue and bump the reviewed
counter. -/
def advanceQueue (s : Session) : Session :=
  { s with queue := s.queue.drop 1, reviewed := s.reviewed + 1 }

/-- `handleDelete` : if the queue is non-empty, record the head as deleted
in the store and advance the queue; otherwise do nothing. -/
def handleDelete (s : Session) : Session :=
  match s.queue with
  | [] => s
  | h :: _ => advanceQueue { s with store := addDeleted h s.store }

/-- `handleKeep` : if the queue is non-empty, record the head as kept in
the store and advance the queue; otherwise do nothing. -/
def handleKeep (s : Session) : Session :=
  match s.queue with
  | [] => s
  | h :: _ => advanceQueue { s with store := addKept h s.store }

/-- `handleUndo` : if the store's undo slot is set, undo it in the store,
prepend the undone asset to the queue, and decrement the reviewed counter
floored at zero (`Math.max(0, r - 1)`); otherwise do nothing. -/
def handleUndo (s : Session) : Session :=
  match s.store.lastAction with
  | none => s
  | some la =>
    { queue := la.asset :: s.queue
      reviewed := s.reviewed - 1
      store := undoLast s.store }

/-- `handleSkip` : if the queue is non-empty, move the head to the tail;
otherwise do nothing. -/
def handleSkip (s : Session) : Session :=
  match s.queue with
  | [] => s
  | current :: rest => { s with queue := rest ++ [current] }

/-- The pagination filter of `loadMore`: a fetched record enters the queue
iff its id is in neither the deleted-id set nor the kept-id set. -/
def undecidedB (st : Store) (a : StoredAsset) : Bool :=
  !((st.deletedAssets.map (fun d => d.id)).contains a.id) && !(st.keptIds.contains a.id)

/-- `loadMore` : filter the fetched page against the decided-id sets and
either replace the queue (initial load, no cursor) or append to its tail
(continuation, with cursor). -/
def loadMore (cursor : Bool) (records : List StoredAsset) (s : Session) : Session :=
  let newAssets := records.filter (fun a => undecidedB s.store a)
  { s with queue := if cursor then s.queue ++ newAssets else newAssets }

/-! ### Clustering Engine (`utils/photoAnalysis.ts`) -/

/-- The time-sorted copy taken by `detectSimilarGroups`
(`[...assets].sort((a, b) => a.creationTime - b.creationTime)`): a stable
ascending sort by `creationTime`, modelled by insertion sort. -/
def timeSort (assets : List StoredAsset) : List StoredAsset :=
  List.insertionSort (fun a b => a.creationTime ≤ b.creationTime) assets

/-- The scan loop of `detectSimilarGroups`: `prev` is the previously
visited element of the sorted list, `currentGroup` the run being built
(ending in `prev`); a run is emitted when closed only if it has at least
two members. -/
def scanGroups (prev : StoredAsset) (currentGroup : List StoredAsset) :
    List StoredAsset → List (List StoredAsset)
  | [] => if 2 ≤ currentGroup.length then [currentGroup] else []
  | curr :: rest =>
    if curr.creationTime - prev.creationTime ≤ 8000 then
      scanGroups curr (currentGroup ++ [curr]) rest
    else
      (if 2 ≤ currentGroup.length then [currentGroup] else []) ++ scanGroups curr [curr] rest

/-- `detectSimilarGroups` : sort a copy ascending by `creationTime`, then
scan once, grouping photos whose adjacent gaps are at most 8000 ms and
keeping only groups of two or more. -/
def detectSimilarGroups (assets : List StoredAsset) : List (List StoredAsset) :=
  match timeSort assets with
  | [] => []
  | first :: rest => scanGroups first [first] rest

/-- `detectLowQuality` : keep the records with `width > 0` and
(`width < 800` or `height < 800`), in input order. -/
def detectLowQuality (assets : List StoredAsset) : List StoredAsset :=
  assets.filter (fun a => decide (0 < a.width) && (decide (a.width < 800) || decide (a.height < 800)))

/-- Modelled from the spec (§4.3 step 2): the greedy left-to-right
partition of an already-sorted list into maximal runs whose adjacent
`creationTime` gaps are at most 8000 ms. Used only to compare the source's
`scanGroups` loop against the spec's description. -/
def runSplit (prev : StoredAsset) (currentRun : List StoredAsset) :
    List StoredAsset → List (List StoredAsset)
  | [] => [currentRun]
  | curr :: rest =>
    if curr.creationTime - prev.creationTime ≤ 8000 then
      runSplit curr (currentRun ++ [curr]) rest
    else
      currentRun :: runSplit curr [curr] rest

/-- Modelled from the spec (§4.3): the greedy run partition of a list,
seeded with its first element. -/
def splitRuns : List StoredAsset → List (List StoredAsset)
  | [] => []
  | first :: rest => runSplit first [first] rest

/-! ### Decision-store operations as a step function -/

/-- One Decision Store operation. -/
inductive StoreOp where
  | recordDeleted (a : StoredAsset)
  | recordKept (a : StoredAsset)
  | recoverOne (i : String)
  | recoverEvery
  | undo
deriving DecidableEq

/-- Apply one store operation. -/
def storeStep (s : Store) : StoreOp → Store
  | StoreOp.recordDeleted a => addDeleted a s
  | StoreOp.recordKept a => addKept a s
  | StoreOp.recoverOne i => recoverAsset i s
  | StoreOp.recoverEvery => recoverAll s
  | StoreOp.undo => undoLast s

/-- Apply a sequence of store operations left to right. -/
def runStore (ops : List StoreOp) (s : Store) : Store :=
  ops.foldl storeStep s

/-- The id of the photo argument of a record operation, if any. -/
def opArgIds : StoreOp → List String
  | StoreOp.recordDeleted a => [a.id]
  | StoreOp.recordKept a => [a.id]
  | _ => []

/-- The ids of all photo arguments of a sequence of store operations. -/
def argIds (ops : List StoreOp) : List String :=
  (ops.map opArgIds).flatten

/-! ### Review-session operations as a step function -/

/-- One user-visible review-session operation. -/
inductive SessionOp where
  | delete
  | keep
  | skip
  | undo
  | append (records : List StoredAsset)
deriving DecidableEq

/-- Apply one session operation: `delete`/`keep`/`skip`/`undo` are the
`ReviewScreen` handlers, `append records` is a pagination continuation
(`loadMore` with a cursor). -/
def sessionStep (s : Session) : SessionOp → Session
  | SessionOp.delete => handleDelete s
  | SessionOp.keep => handleKeep s
  | SessionOp.skip => handleSkip s
  | SessionOp.undo => handleUndo s
  | SessionOp.append records => loadMore true records s

/-- Apply a sequence of session operations left to right. -/
def runSession (ops : List SessionOp) (s : Session) : Session :=
  ops.foldl sessionStep s

/-- The review-session invariant: no queued id is decided, queued ids are
pairwise distinct, and the undo slot (when set) names an id that is out of
the queue, recorded in the list its action targeted, and absent from the
other list. -/
structure SessionInv (s : Session) : Prop where
  queue_undecided : ∀ a ∈ s.queue,
    a.id ∉ deletedIds s.store ∧ a.id ∉ s.store.keptIds
  queue_nodup : (s.queue.map (fun a => a.id)).Nodup
  la_out_of_queue : ∀ la, s.store.lastAction = some la →
    la.asset.id ∉ s.queue.map (fun a => a.id)
  la_recorded : ∀ la, s.store.lastAction = some la →
    (la.type = ActionType.deleted → la.asset.id ∈ deletedIds s.store) ∧
    (la.type = ActionType.kept → la.asset.id ∈ s.store.keptIds)
  la_exclusive : ∀ la, s.store.lastAction = some la →
    (la.type = ActionType.deleted → la.asset.id ∉ s.store.keptIds) ∧
    (la.type = ActionType.kept → la.asset.id ∉ deletedIds s.store)

/-- A session operation is fresh for a state when any page it appends has
pairwise-distinct ids, none of which is already in the queue (pagination
with a cursor only yields records not fetched before). -/
def freshFor (s : Session) : SessionOp → Prop
  | SessionOp.append records =>
    (records.map (fun a => a.id)).Nodup ∧
    ∀ a ∈ records, a.id ∉ s.queue.map (fun b => b.id)
  | _ => True

/-- The states reachable from `s` by session operations whose appended
pages are fresh. -/
inductive ReachableFresh : Session → Session → Prop where
  | refl (s : Session) : ReachableFresh s s
  | step (s t : Session) (op : SessionOp) (h : ReachableFresh s t)
      (hf : freshFor t op) : ReachableFresh s (sessionStep t op)

/-- Two assets are close in time when the second was created at most
8000 ms after the first (the spec's proximity window). -/
def closeInTime (a b : StoredAsset) : Prop :=
  b.creationTime - a.creationTime ≤ 8000

/-! ### Concrete fixtures used by witnesses and counterexamples -/

/-- A concrete asset with the given id, creation time and dimensions. -/
def mkAsset (i : String) (t w h : Int) : StoredAsset := ⟨i, "uri", "file", t, w, h⟩

/-- The spec's P5 example: records created at 0, 3000, 7000, 20000 and
21000 ms. -/
def similarExample : List StoredAsset :=
  [mkAsset "t0" 0 1 1, mkAsset "t3000" 3000 1 1, mkAsset "t7000" 7000 1 1,
    mkAsset "t20000" 20000 1 1, mkAsset "t21000" 21000 1 1]

/-- A burst of three photos plus one isolated photo 43000 ms later. -/
def isolatedExample : List StoredAsset :=
  [mkAsset "t0" 0 1 1, mkAsset "t3000" 3000 1 1, mkAsset "t7000" 7000 1 1,
    mkAsset "far" 50000 1 1]

/-! ### Theorems -/

/-- **C9** — the store performs no cross-list removal on record: after
`addDeleted p` followed by `addKept p` on the same asset, `p.id` is in the
deleted list and in the kept-id list simultaneously. -/
theorem record_no_cross_removal (s : Store) (p : StoredAsset) :
    p.id ∈ deletedIds (addKept p (addDeleted p s)) ∧
    p.id ∈ (addKept p (addDeleted p s)).keptIds := by
  constructor
  · simp [addKept, addDeleted, deletedIds]
  · simp [addKept, addDeleted]

/-- **C10** — `undoLast` removes every occurrence of the last-actioned id:
with `LastAction = Deleted p` the deleted list becomes its filter dropping
all entries with id `p.id` (kept list untouched), and with
`LastAction = Kept p` the kept list becomes its filter dropping all copies
of `p.id` (deleted list untouched); `LastAction` is cleared either way. -/
theorem undoLast_removes_all_occurrences (s : Store) (p : StoredAsset) :
    (s.lastAction = some ⟨ActionType.deleted, p⟩ →
      (undoLast s).deletedAssets = s.deletedAssets.filter (fun a => a.id != p.id) ∧
      (∀ a, a ∈ (undoLast s).deletedAssets ↔ a ∈ s.deletedAssets ∧ a.id ≠ p.id) ∧
      (undoLast s).keptIds = s.keptIds ∧
      (undoLast s).lastAction = none) ∧
    (s.lastAction = some ⟨ActionType.kept, p⟩ →
      (undoLast s).keptIds = s.keptIds.filter (fun i => i != p.id) ∧
      (∀ i, i ∈ (undoLast s).keptIds ↔ i ∈ s.keptIds ∧ i ≠ p.id) ∧
      (undoLast s).deletedAssets = s.deletedAssets ∧
      (undoLast s).lastAction = none) := by
  constructor
  · intro h
    simp [undoLast, h, List.mem_filter]
  · intro h
    simp [undoLast, h, List.mem_filter]

/-- Witness for C10 at a store whose deleted list holds the last-actioned
id twice: undo removes both copies. -/
theorem undoLast_removes_all_occurrences_witness :
    (⟨[mkAsset "p" 0 1 1, mkAsset "q" 0 1 1, mkAsset "p" 5 9 9], [],
        some ⟨ActionType.deleted, mkAsset "p" 0 1 1⟩⟩ : Store).lastAction =
      some ⟨ActionType.deleted, mkAsset "p" 0 1 1⟩ ∧
    (undoLast ⟨[mkAsset "p" 0 1 1, mkAsset "q" 0 1 1, mkAsset "p" 5 9 9], [],
        some ⟨ActionType.deleted, mkAsset "p" 0 1 1⟩⟩).deletedAssets =
      [mkAsset "q" 0 1 1] := by
  refine ⟨rfl, ?_⟩
  have h := (undoLast_removes_all_occurrences
    ⟨[mkAsset "p" 0 1 1, mkAsset "q" 0 1 1, mkAsset "p" 5 9 9], [],
      some ⟨ActionType.deleted, mkAsset "p" 0 1 1⟩⟩ (mkAsset "p" 0 1 1)).1 rfl
  rw [h.1]
  decide

/-- **C8** — decide, skip and undo on an empty or ineligible state are
no-ops: deleting, keeping or skipping with an empty queue changes nothing,
and undo (session-level or store-level) with an empty undo slot changes
nothing. -/
theorem noop_on_ineligible_state (s t : Session) (st : Store)
    (hq : s.queue = []) (hla : t.store.lastAction = none)
    (hst : st.lastAction = none) :
    handleDelete s = s ∧ handleKeep s = s ∧ handleSkip s = s ∧
    handleUndo t = t ∧ undoLast st = st := by
  refine ⟨?_, ?_, ?_, ?_, ?_⟩
  · simp [handleDelete, hq]
  · simp [handleKeep, hq]
  · simp [handleSkip, hq]
  · simp [handleUndo, hla]
  · simp [undoLast, hst]

/-- Witness for C8 at concrete empty states. -/
theorem noop_on_ineligible_state_witness :
    (⟨[], 0, emptyStore⟩ : Session).queue = [] ∧
    (⟨[mkAsset "a" 0 1 1], 2, emptyStore⟩ : Session).store.lastAction = none ∧
    emptyStore.lastAction = none ∧
    handleDelete ⟨[], 0, emptyStore⟩ = ⟨[], 0, emptyStore⟩ ∧
    handleUndo ⟨[mkAsset "a" 0 1 1], 2, emptyStore⟩ = ⟨[mkAsset "a" 0 1 1], 2, emptyStore⟩ ∧
    undoLast emptyStore = emptyStore := by
  have h := noop_on_ineligible_state ⟨[], 0, emptyStore⟩
    ⟨[mkAsset "a" 0 1 1], 2, emptyStore⟩ emptyStore rfl rfl rfl
  exact ⟨rfl, rfl, rfl, h.1, h.2.2.2.1, h.2.2.2.2⟩

/-- **C1 counterexample** — the undo-reverses-one-step property fails on a
store whose deleted list already holds the recorded id: from
`deletedAssets = [p]`, doing `addDeleted p` then `undoLast` leaves the
deleted list empty, not `[p]`. -/
theorem undo_reverses_counterexample :
    (undoLast (addDeleted (mkAsset "p" 0 1 1)
        ⟨[mkAsset "p" 0 1 1], [], none⟩)).deletedAssets ≠
      (⟨[mkAsset "p" 0 1 1], [], none⟩ : Store).deletedAssets := by
  decide

/-- **C1 (amended)** — provided the recorded id is not already present in
the deleted list nor in the kept-id list, a single `addDeleted p` or
`addKept p` followed immediately by `undoLast` restores both lists to
their prior state, and `LastAction` is empty. -/
theorem undo_reverses_fresh_record (s : Store) (p : StoredAsset)
    (hd : p.id ∉ deletedIds s) (hk : p.id ∉ s.keptIds) :
    ((undoLast (addDeleted p s)).deletedAssets = s.deletedAssets ∧
      (undoLast (addDeleted p s)).keptIds = s.keptIds ∧
      (undoLast (addDeleted p s)).lastAction = none) ∧
    ((undoLast (addKept p s)).deletedAssets = s.deletedAssets ∧
      (undoLast (addKept p s)).keptIds = s.keptIds ∧
      (undoLast (addKept p s)).lastAction = none) := by
  have hdel : ∀ a ∈ s.deletedAssets, (a.id != p.id) = true := by
    intro a ha
    simp only [bne_iff_ne, ne_eq]
    intro e
    exact hd (by simpa [deletedIds, e] using List.mem_map_of_mem (fun x => x.id) ha)
  have hkept : ∀ i ∈ s.keptIds, (i != p.id) = true := by
    intro i hi
    simp only [bne_iff_ne, ne_eq]
    intro e
    exact hk (e ▸ hi)
  refine ⟨⟨?_, ?_, ?_⟩, ⟨?_, ?_, ?_⟩⟩
  · simp [undoLast, addDeleted, List.filter_eq_self.mpr hdel]
  · simp [undoLast, addDeleted]
  · simp [undoLast, addDeleted]
  · simp [undoLast, addKept]
  · simp [undoLast, addKept, List.filter_append, List.filter_eq_self.mpr hkept]
  · simp [undoLast, addKept]

/-- Witness for the amended C1 at a concrete store with one unrelated
entry in each list. -/
theorem undo_reverses_fresh_record_witness :
    (mkAsset "p" 0 1 1).id ∉ deletedIds ⟨[mkAsset "q" 0 1 1], ["r"], none⟩ ∧
    (mkAsset "p" 0 1 1).id ∉ (⟨[mkAsset "q" 0 1 1], ["r"], none⟩ : Store).keptIds ∧
    (undoLast (addDeleted (mkAsset "p" 0 1 1)
        ⟨[mkAsset "q" 0 1 1], ["r"], none⟩)).deletedAssets = [mkAsset "q" 0 1 1] := by
  refine ⟨by decide, by decide, ?_⟩
  exact (undo_reverses_fresh_record ⟨[mkAsset "q" 0 1 1], ["r"], none⟩
    (mkAsset "p" 0 1 1) (by decide) (by decide)).1.1

/-- **C6** — deciding Deleted on a non-empty queue removes the head photo,
increments the reviewed counter by exactly one, prepends the photo to the
store's deleted list (its id appears there most-recent-first) and sets
`LastAction = Deleted(photo)`. -/
theorem decide_deleted_advances_and_records (s : Session) (h : StoredAsset)
    (rest : List StoredAsset) (hq : s.queue = h :: rest) :
    (handleDelete s).queue = rest ∧
    (handleDelete s).reviewed = s.reviewed + 1 ∧
    (handleDelete s).store.deletedAssets = h :: s.store.deletedAssets ∧
    h.id ∈ deletedIds (handleDelete s).store ∧
    (handleDelete s).store.lastAction = some ⟨ActionType.deleted, h⟩ := by
  refine ⟨?_, ?_, ?_, ?_, ?_⟩ <;>
    simp [handleDelete, hq, advanceQueue, addDeleted, deletedIds]

/-- Witness for C6 at a concrete two-element queue. -/
theorem decide_deleted_advances_and_records_witness :
    (⟨[mkAsset "a" 0 1 1, mkAsset "b" 1 1 1], 3, emptyStore⟩ : Session).queue =
      mkAsset "a" 0 1 1 :: [mkAsset "b" 1 1 1] ∧
    (handleDelete ⟨[mkAsset "a" 0 1 1, mkAsset "b" 1 1 1], 3, emptyStore⟩).queue =
      [mkAsset "b" 1 1 1] ∧
    (handleDelete ⟨[mkAsset "a" 0 1 1, mkAsset "b" 1 1 1], 3, emptyStore⟩).reviewed = 4 ∧
    (handleDelete ⟨[mkAsset "a" 0 1 1, mkAsset "b" 1 1 1], 3,
        emptyStore⟩).store.deletedAssets = [mkAsset "a" 0 1 1] := by
  have h := decide_deleted_advances_and_records
    ⟨[mkAsset "a" 0 1 1, mkAsset "b" 1 1 1], 3, emptyStore⟩
    (mkAsset "a" 0 1 1) [mkAsset "b" 1 1 1] rfl
  exact ⟨rfl, h.1, h.2.1, h.2.2.1⟩

/-- One skip leaves the queue a permutation of itself and the rest of the
session unchanged. -/
theorem handleSkip_perm (s : Session) :
    (handleSkip s).queue.Perm s.queue ∧ (handleSkip s).reviewed = s.reviewed ∧
    (handleSkip s).store = s.store := by
  match hq : s.queue with
  | [] => simp [handleSkip, hq]
  | h :: rest =>
    refine ⟨?_, ?_, ?_⟩ <;> simp [handleSkip, hq]

/-- **C7** — after any sequence of skips the queue holds exactly the same
records (a permutation, hence the same set) and the reviewed counter is
unchanged; each skip moves the head to the tail, and skipping a singleton
queue leaves it unchanged. -/
theorem skip_only_conserves_queue (s : Session) (n : Nat) :
    ((runSession (List.replicate n SessionOp.skip) s).queue).Perm s.queue ∧
    (runSession (List.replicate n SessionOp.skip) s).reviewed = s.reviewed ∧
    (∀ h rest, s.queue = h :: rest → (handleSkip s).queue = rest ++ [h]) ∧
    (∀ x, s.queue = [x] → (handleSkip s).queue = s.queue) := by
  refine ⟨?_, ?_, ?_, ?_⟩
  · induction n generalizing s with
    | zero => simp [runSession]
    | succ k ih =>
      have hstep : runSession (List.replicate (k + 1) SessionOp.skip) s =
          runSession (List.replicate k SessionOp.skip) (handleSkip s) := by
        simp [runSession, List.replicate_succ, sessionStep]
      rw [hstep]
      exact (ih (handleSkip s)).trans (handleSkip_perm s).1
  · induction n generalizing s with
    | zero => simp [runSession]
    | succ k ih =>
      have hstep : runSession (List.replicate (k + 1) SessionOp.skip) s =
          runSession (List.replicate k SessionOp.skip) (handleSkip s) := by
        simp [runSession, List.replicate_succ, sessionStep]
      rw [hstep, ih (handleSkip s)]
      exact (handleSkip_perm s).2.1
  · intro h rest hq
    simp [handleSkip, hq]
  · intro x hq
    simp [handleSkip, hq]

/-- Witness for C7: four skips on a three-element queue, one skip moving
the head to the tail, and a skip on a singleton queue. -/
theorem skip_only_conserves_queue_witness :
    ((runSession (List.replicate 4 SessionOp.skip)
        ⟨[mkAsset "a" 0 1 1, mkAsset "b" 1 1 1, mkAsset "c" 2 1 1], 5,
          emptyStore⟩).queue).Perm
      [mkAsset "a" 0 1 1, mkAsset "b" 1 1 1, mkAsset "c" 2 1 1] ∧
    (runSession (List.replicate 4 SessionOp.skip)
        ⟨[mkAsset "a" 0 1 1, mkAsset "b" 1 1 1, mkAsset "c" 2 1 1], 5,
          emptyStore⟩).reviewed = 5 ∧
    (handleSkip ⟨[mkAsset "a" 0 1 1, mkAsset "b" 1 1 1, mkAsset "c" 2 1 1], 5,
        emptyStore⟩).queue =
      [mkAsset "b" 1 1 1, mkAsset "c" 2 1 1, mkAsset "a" 0 1 1] ∧
    (handleSkip ⟨[mkAsset "d" 3 1 1], 0, emptyStore⟩).queue = [mkAsset "d" 3 1 1] := by
  have h := skip_only_conserves_queue
    ⟨[mkAsset "a" 0 1 1, mkAsset "b" 1 1 1, mkAsset "c" 2 1 1], 5, emptyStore⟩ 4
  have hsingle := skip_only_conserves_queue ⟨[mkAsset "d" 3 1 1], 0, emptyStore⟩ 0
  refine ⟨h.1, h.2.1, ?_, hsingle.2.2.2 (mkAsset "d" 3 1 1) rfl⟩
  rw [h.2.2.1 (mkAsset "a" 0 1 1) [mkAsset "b" 1 1 1, mkAsset "c" 2 1 1] rfl]
  decide

/-- **C3 counterexample** — the queue-excludes-decided-ids invariant fails
when a pagination append repeats a record already in the queue: from a
filtered initial load of `[p]`, appending the page `[p]` again and then
deciding Deleted leaves `p` in the queue while `p.id` is in the deleted
list. -/
theorem queue_decided_disjoint_counterexample :
    mkAsset "p" 0 1 1 ∈
      (handleDelete (loadMore true [mkAsset "p" 0 1 1]
        (loadMore false [mkAsset "p" 0 1 1] ⟨[], 0, emptyStore⟩))).queue ∧
    (mkAsset "p" 0 1 1).id ∈ deletedIds
      (handleDelete (loadMore true [mkAsset "p" 0 1 1]
        (loadMore false [mkAsset "p" 0 1 1] ⟨[], 0, emptyStore⟩))).store := by
  decide

/-- Mapping the id over a filtered asset list only loses members. -/
theorem mem_map_id_of_mem_filter {l : List StoredAsset} {p : StoredAsset → Bool}
    {i : String} (hi : i ∈ (l.filter p).map (fun a => a.id)) :
    i ∈ l.map (fun a => a.id) := by
  simp only [List.mem_map, List.mem_filter] at hi ⊢
  obtain ⟨a, ⟨ha, _⟩, rfl⟩ := hi
  exact ⟨a, ha, rfl⟩

/-- `undoLast` never adds to the deleted-id list. -/
theorem deletedIds_undoLast_subset (s : Store) :
    ∀ i ∈ deletedIds (undoLast s), i ∈ deletedIds s := by
  intro i hi
  match h : s.lastAction with
  | none => simpa [undoLast, h] using hi
  | some ⟨ActionType.deleted, a⟩ =>
    simp only [undoLast, h] at hi
    exact mem_map_id_of_mem_filter hi
  | some ⟨ActionType.kept, a⟩ => simpa [undoLast, h] using hi

/-- `undoLast` never adds to the kept-id list. -/
theorem keptIds_undoLast_subset (s : Store) :
    ∀ i ∈ (undoLast s).keptIds, i ∈ s.keptIds := by
  intro i hi
  match h : s.lastAction with
  | none => simpa [undoLast, h] using hi
  | some ⟨ActionType.deleted, a⟩ => simpa [undoLast, h] using hi
  | some ⟨ActionType.kept, a⟩ =>
    simp only [undoLast, h, List.mem_filter] at hi
    exact hi.1

/-- `addDeleted` prepends the recorded id to the deleted-id list. -/
theorem deletedIds_addDeleted (a : StoredAsset) (s : Store) :
    deletedIds (addDeleted a s) = a.id :: deletedIds s := rfl

/-- `addDeleted` leaves the kept-id list unchanged. -/
theorem keptIds_addDeleted_eq (a : StoredAsset) (s : Store) :
    (addDeleted a s).keptIds = s.keptIds := rfl

/-- `addKept` leaves the deleted-id list unchanged. -/
theorem deletedIds_addKept (a : StoredAsset) (s : Store) :
    deletedIds (addKept a s) = deletedIds s := rfl

/-- `addKept` appends the recorded id to the kept-id list. -/
theorem keptIds_addKept_eq (a : StoredAsset) (s : Store) :
    (addKept a s).keptIds = s.keptIds ++ [a.id] := rfl

/-- `recoverAsset` never adds to the deleted-id list. -/
theorem deletedIds_recoverAsset_subset (j : String) (s : Store) :
    ∀ i ∈ deletedIds (recoverAsset j s), i ∈ deletedIds s := by
  intro i hi
  exact mem_map_id_of_mem_filter hi

/-- Mutual exclusion is preserved by any operation sequence whose photo
arguments have pairwise-distinct ids that are fresh for the start state. -/
theorem runStore_mutual_exclusion (ops : List StoreOp) (s : Store)
    (hdk : ∀ i ∈ deletedIds s, i ∉ s.keptIds)
    (hargs : ∀ i ∈ argIds ops, i ∉ deletedIds s ∧ i ∉ s.keptIds)
    (hn : (argIds ops).Nodup) :
    ∀ i ∈ deletedIds (runStore ops s), i ∉ (runStore ops s).keptIds := by
  induction ops generalizing s with
  | nil => exact hdk
  | cons op rest ih =>
    rw [show runStore (op :: rest) s = runStore rest (storeStep s op) from rfl]
    have hsplit : argIds (op :: rest) = opArgIds op ++ argIds rest := by
      simp [argIds]
    rw [hsplit] at hargs hn
    obtain ⟨-, hnr, hdisj⟩ := List.nodup_append.mp hn
    refine ih (storeStep s op) ?_ ?_ hnr
    · cases op with
      | recordDeleted a =>
        simp only [storeStep, deletedIds_addDeleted, keptIds_addDeleted_eq]
        intro i hi hk
        rcases List.mem_cons.mp hi with rfl | hprev
        · exact (hargs a.id (List.mem_append_left _ (by simp [opArgIds]))).2 hk
        · exact hdk i hprev hk
      | recordKept a =>
        simp only [storeStep, deletedIds_addKept, keptIds_addKept_eq]
        intro i hi hk
        rcases List.mem_append.mp hk with hk1 | hk2
        · exact hdk i hi hk1
        · have he : i = a.id := by simpa using hk2
          subst he
          exact (hargs a.id (List.mem_append_left _ (by simp [opArgIds]))).1 hi
      | recoverOne j =>
        intro i hi hk
        exact hdk i (deletedIds_recoverAsset_subset j s i hi) hk
      | recoverEvery =>
        intro i hi
        simp [storeStep, recoverAll, deletedIds] at hi
      | undo =>
        intro i hi hk
        exact hdk i (deletedIds_undoLast_subset s i hi) (keptIds_undoLast_subset s i hk)
    · intro i hiR
      obtain ⟨hid, hik⟩ := hargs i (List.mem_append_right _ hiR)
      have hne : i ∉ opArgIds op := fun hmem => hdisj hmem hiR
      cases op with
      | recordDeleted a =>
        refine ⟨?_, hik⟩
        simp only [storeStep, deletedIds_addDeleted]
        intro hcon
        rcases List.mem_cons.mp hcon with rfl | hprev
        · exact hne (by simp [opArgIds])
        · exact hid hprev
      | recordKept a =>
        refine ⟨hid, ?_⟩
        simp only [storeStep, keptIds_addKept_eq]
        intro hcon
        rcases List.mem_append.mp hcon with h1 | h2
        · exact hik h1
        · exact hne (by simp [opArgIds, by simpa using h2])
      | recoverOne j =>
        exact ⟨fun hmem => hid (deletedIds_recoverAsset_subset j s i hmem), hik⟩
      | recoverEvery =>
        refine ⟨?_, hik⟩
        simp [storeStep, recoverAll, deletedIds]
      | undo =>
        exact ⟨fun hmem => hid (deletedIds_undoLast_subset s i hmem),
          fun hmem => hik (keptIds_undoLast_subset s i hmem)⟩

/-- **C2** — for every sequence of store operations starting from empty
lists whose photo arguments have pairwise-distinct ids, no id ends up in
both the deleted list and the kept-id list. -/
theorem decision_lists_mutually_exclusive (ops : List StoreOp)
    (hn : (argIds ops).Nodup) :
    ∀ i ∈ deletedIds (runStore ops emptyStore), i ∉ (runStore ops emptyStore).keptIds :=
  runStore_mutual_exclusion ops emptyStore
    (by simp [emptyStore, deletedIds])
    (by simp [emptyStore, deletedIds]) hn

/-- Witness for C2 at a concrete four-operation sequence. -/
theorem decision_lists_mutually_exclusive_witness :
    (argIds [StoreOp.recordDeleted (mkAsset "a" 0 1 1),
      StoreOp.recordKept (mkAsset "b" 1 1 1), StoreOp.undo,
      StoreOp.recoverOne "c"]).Nodup ∧
    "a" ∉ (runStore [StoreOp.recordDeleted (mkAsset "a" 0 1 1),
      StoreOp.recordKept (mkAsset "b" 1 1 1), StoreOp.undo,
      StoreOp.recoverOne "c"] emptyStore).keptIds :=
  ⟨by decide, decision_lists_mutually_exclusive _ (by decide) "a" (by decide)⟩

/-- **C5** — `detectLowQuality` returns, in input order (a sublist),
exactly the records with `width > 0` and (`width < 800` or
`height < 800`); a zero-width record is excluded regardless of height, and
on the spec's four-record example it returns exactly the 799×1000 and
1000×799 records. -/
theorem low_quality_filter_spec :
    (∀ l : List StoredAsset, (detectLowQuality l).Sublist l) ∧
    (∀ (l : List StoredAsset) (a : StoredAsset),
      a ∈ detectLowQuality l ↔
        a ∈ l ∧ 0 < a.width ∧ (a.width < 800 ∨ a.height < 800)) ∧
    detectLowQuality [mkAsset "q0" 0 0 0, mkAsset "q1" 0 799 1000,
        mkAsset "q2" 0 1000 799, mkAsset "q3" 0 1000 1000] =
      [mkAsset "q1" 0 799 1000, mkAsset "q2" 0 1000 799] := by
  refine ⟨?_, ?_, by decide⟩
  · intro l
    exact List.filter_sublist l
  · intro l a
    simp [detectLowQuality, List.mem_filter, and_assoc]

/-- Witness for C5: the zero-width record of the example is excluded. -/
theorem low_quality_filter_spec_witness :
    mkAsset "q0" 0 0 0 ∉
      detectLowQuality [mkAsset "q0" 0 0 0, mkAsset "q1" 0 799 1000] := by
  intro hmem
  have h := (low_quality_filter_spec.2.1 _ _).mp hmem
  exact absurd h.2.1 (by decide)

/-- The source's scan loop equals the spec's greedy run partition followed
by the length-at-least-two filter. -/
theorem scanGroups_eq_filter_runSplit (rest : List StoredAsset) :
    ∀ (prev : StoredAsset) (cur : List StoredAsset),
      scanGroups prev cur rest =
        (runSplit prev cur rest).filter (fun g => decide (2 ≤ g.length)) := by
  induction rest with
  | nil =>
    intro prev cur
    by_cases h : 2 ≤ cur.length <;> simp [scanGroups, runSplit, h]
  | cons c rest ih =>
    intro prev cur
    simp only [scanGroups, runSplit]
    by_cases h : c.creationTime - prev.creationTime ≤ 8000
    · simp [h, ih]
    · by_cases h2 : 2 ≤ cur.length <;> simp [h, h2, ih, List.filter_cons]

/-- The greedy run partition concatenates back to the scanned list. -/
theorem runSplit_flatten (rest : List StoredAsset) :
    ∀ (prev : StoredAsset) (cur : List StoredAsset),
      (runSplit prev cur rest).flatten = cur ++ rest := by
  induction rest with
  | nil =>
    intro prev cur
    simp [runSplit]
  | cons c rest ih =>
    intro prev cur
    simp only [runSplit]
    by_cases h : c.creationTime - prev.creationTime ≤ 8000 <;>
      simp [h, ih, List.append_assoc]

/-- Every run produced by the greedy partition is a contiguous segment of
the scanned list. -/
theorem runSplit_mem_segment (rest : List StoredAsset) :
    ∀ (prev : StoredAsset) (cur : List StoredAsset), ∀ g ∈ runSplit prev cur rest,
      ∃ u v, u ++ (g ++ v) = cur ++ rest := by
  induction rest with
  | nil =>
    intro prev cur g hg
    simp [runSplit] at hg
    subst hg
    exact ⟨[], [], by simp⟩
  | cons c rest ih =>
    intro prev cur g hg
    simp only [runSplit] at hg
    by_cases h : c.creationTime - prev.creationTime ≤ 8000
    · rw [if_pos h] at hg
      obtain ⟨u, v, huv⟩ := ih c (cur ++ [c]) g hg
      exact ⟨u, v, by simpa [List.append_assoc] using huv⟩
    · rw [if_neg h] at hg
      rcases List.mem_cons.mp hg with rfl | hg2
      · exact ⟨[], c :: rest, by simp⟩
      · obtain ⟨u, v, huv⟩ := ih c [c] g hg2
        refine ⟨cur ++ u, v, ?_⟩
        rw [List.append_assoc, huv]
        simp

/-- Every run produced by the greedy partition is non-empty and its
adjacent members are within the 8000 ms window. -/
theorem runSplit_chain (rest : List StoredAsset) :
    ∀ (prev : StoredAsset) (cur : List StoredAsset), cur ≠ [] →
      cur.getLast? = some prev → List.Chain' closeInTime cur →
      ∀ g ∈ runSplit prev cur rest, g ≠ [] ∧ List.Chain' closeInTime g := by
  induction rest with
  | nil =>
    intro prev cur hne hlast hchain g hg
    simp [runSplit] at hg
    subst hg
    exact ⟨hne, hchain⟩
  | cons c rest ih =>
    intro prev cur hne hlast hchain g hg
    simp only [runSplit] at hg
    by_cases h : c.creationTime - prev.creationTime ≤ 8000
    · rw [if_pos h] at hg
      refine ih c (cur ++ [c]) (by simp) (by simp) ?_ g hg
      rw [List.chain'_append]
      refine ⟨hchain, List.chain'_singleton c, ?_⟩
      intro x hx y hy
      simp at hy
      subst hy
      rw [hlast] at hx
      simp at hx
      subst hx
      exact h
    · rw [if_neg h] at hg
      rcases List.mem_cons.mp hg with rfl | hg2
      · exact ⟨hne, hchain⟩
      · exact ih c [c] (by simp) (by simp) (List.chain'_singleton c) g hg2

/-- In a chain of length at least two, every member sits in some adjacent
pair of the chain, and that pair is related. -/
theorem chain'_mem_adjacent_pair :
    ∀ g : List StoredAsset, List.Chain' closeInTime g → 2 ≤ g.length →
      ∀ x ∈ g, ∃ u a b v, g = u ++ a :: b :: v ∧ (x = a ∨ x = b) ∧ closeInTime a b := by
  intro g
  induction g with
  | nil =>
    intro _ _ x hx
    simp at hx
  | cons a t ih =>
    intro hc hlen x hx
    match t with
    | [] => simp at hlen
    | [b] =>
      rcases List.mem_cons.mp hx with rfl | hx2
      · exact ⟨[], x, b, [], rfl, Or.inl rfl, (List.chain'_cons.mp hc).1⟩
      · have hxb : x = b := by simpa using hx2
        exact ⟨[], a, b, [], rfl, Or.inr hxb, (List.chain'_cons.mp hc).1⟩
    | b :: c :: t3 =>
      rcases List.mem_cons.mp hx with rfl | hx2
      · exact ⟨[], x, b, c :: t3, rfl, Or.inl rfl, (List.chain'_cons.mp hc).1⟩
      · obtain ⟨u, p, q, v, hgeq, hxpq, hR⟩ :=
          ih (List.Chain'.tail hc) (by simp) x hx2
        exact ⟨a :: u, p, q, v, by rw [List.cons_append, ← hgeq], hxpq, hR⟩

/-- An adjacent pair of a decomposed list is a member of the list zipped
with its tail. -/
theorem adjacent_pair_mem_zip_tail (u v : List StoredAsset) (a b : StoredAsset) :
    ∀ s : List StoredAsset, s = u ++ a :: b :: v → (a, b) ∈ s.zip s.tail := by
  induction u with
  | nil =>
    intro s hs
    subst hs
    simp
  | cons c u ih =>
    intro s hs
    subst hs
    have hne : u ++ a :: b :: v ≠ [] := by simp
    match hu : u ++ a :: b :: v with
    | [] => exact absurd hu hne
    | r1 :: rest2 =>
      simp only [List.cons_append, List.tail_cons, hu, List.zip_cons_cons]
      apply List.mem_cons_of_mem
      have hmem := ih (u ++ a :: b :: v) rfl
      rw [hu] at hmem
      simpa using hmem

/-- **C4** — `detectSimilarGroups` equals the greedy partition of the
time-sorted copy into maximal runs with adjacent gaps at most 8000 ms,
restricted to runs of length at least two (in run order); the runs
partition the sorted copy; on the spec's P5 example it returns exactly the
groups at `[0, 3000, 7000]` and `[20000, 21000]`; and a record more than
8000 ms from its immediate sorted neighbours appears in no group. -/
theorem detect_similar_groups_spec :
    (∀ l : List StoredAsset,
      detectSimilarGroups l =
        (splitRuns (timeSort l)).filter (fun g => decide (2 ≤ g.length))) ∧
    (∀ l : List StoredAsset, (splitRuns (timeSort l)).flatten = timeSort l) ∧
    detectSimilarGroups similarExample =
      [[mkAsset "t0" 0 1 1, mkAsset "t3000" 3000 1 1, mkAsset "t7000" 7000 1 1],
        [mkAsset "t20000" 20000 1 1, mkAsset "t21000" 21000 1 1]] ∧
    (∀ (l : List StoredAsset) (x : StoredAsset),
      (∀ p ∈ (timeSort l).zip (timeSort l).tail,
        p.2.creationTime - p.1.creationTime ≤ 8000 → x ≠ p.1 ∧ x ≠ p.2) →
      ∀ g ∈ detectSimilarGroups l, x ∉ g) := by
  have hchar : ∀ l : List StoredAsset,
      detectSimilarGroups l =
        (splitRuns (timeSort l)).filter (fun g => decide (2 ≤ g.length)) := by
    intro l
    unfold detectSimilarGroups splitRuns
    match timeSort l with
    | [] => rfl
    | f :: r => exact scanGroups_eq_filter_runSplit r f [f]
  refine ⟨hchar, ?_, by decide, ?_⟩
  · intro l
    unfold splitRuns
    match timeSort l with
    | [] => rfl
    | f :: r => exact runSplit_flatten r f [f]
  · intro l x hiso g hg hxg
    rw [hchar, List.mem_filter] at hg
    obtain ⟨hrun, hlen⟩ := hg
    have hlen2 : 2 ≤ g.length := by simpa using hlen
    match hs : timeSort l with
    | [] =>
      rw [hs] at hrun
      simp [splitRuns] at hrun
    | f :: r =>
      rw [hs] at hrun
      simp only [splitRuns] at hrun
      have hchain :=
        (runSplit_chain r f [f] (by simp) (by simp)
          (List.chain'_singleton f) g hrun).2
      obtain ⟨u, a, b, v, hdecomp, hxab, hR⟩ :=
        chain'_mem_adjacent_pair g hchain hlen2 x hxg
      obtain ⟨u2, v2, hseg⟩ := runSplit_mem_segment r f [f] g hrun
      have hsl : timeSort l = (u2 ++ u) ++ a :: b :: (v ++ v2) := by
        have hseg2 : u2 ++ (g ++ v2) = f :: r := by simpa using hseg
        rw [hs, ← hseg2, hdecomp]
        simp [List.append_assoc]
      have hnear := hiso (a, b)
        (adjacent_pair_mem_zip_tail (u2 ++ u) (v ++ v2) a b (timeSort l) hsl) hR
      rcases hxab with rfl | rfl
      · exact hnear.1 rfl
      · exact hnear.2 rfl

/-- Witness for C4: in a burst of three photos plus an isolated photo
43000 ms later, the isolated photo appears in no group. -/
theorem detect_similar_groups_spec_witness :
    (∀ p ∈ (timeSort isolatedExample).zip (timeSort isolatedExample).tail,
      p.2.creationTime - p.1.creationTime ≤ 8000 →
        mkAsset "far" 50000 1 1 ≠ p.1 ∧ mkAsset "far" 50000 1 1 ≠ p.2) ∧
    mkAsset "far" 50000 1 1 ∉
      [mkAsset "t0" 0 1 1, mkAsset "t3000" 3000 1 1, mkAsset "t7000" 7000 1 1] :=
  ⟨by decide,
    detect_similar_groups_spec.2.2.2 isolatedExample (mkAsset "far" 50000 1 1)
      (by decide)
      [mkAsset "t0" 0 1 1, mkAsset "t3000" 3000 1 1, mkAsset "t7000" 7000 1 1]
      (by decide)⟩

/-- The pagination filter keeps a record iff its id is in neither decided
list. -/
theorem undecidedB_eq_true (st : Store) (a : StoredAsset) :
    undecidedB st a = true ↔ a.id ∉ deletedIds st ∧ a.id ∉ st.keptIds := by
  simp [undecidedB, deletedIds]

/-- Filtering a string out of a string list removes it entirely. -/
theorem not_mem_filter_self (x : String) (l : List String) :
    x ∉ l.filter (fun i => i != x) := by
  simp [List.mem_filter]

/-- Filtering assets by id removes the id from the id image entirely. -/
theorem not_mem_map_id_filter_self (x : String) (l : List StoredAsset) :
    x ∉ (l.filter (fun a => a.id != x)).map (fun a => a.id) := by
  simp [List.mem_map, List.mem_filter]

/-- The session invariant holds after an initial filtered load into an
empty queue from a store with an empty undo slot. -/
theorem sessionInv_initial (records : List StoredAsset) (st : Store)
    (hla : st.lastAction = none)
    (hn : (records.map (fun a => a.id)).Nodup) :
    SessionInv (loadMore false records ⟨[], 0, st⟩) := by
  refine ⟨?_, ?_, ?_, ?_, ?_⟩
  · intro a ha
    simp only [loadMore] at ha
    simp only [if_neg Bool.false_ne_true] at ha
    exact (undecidedB_eq_true st a).mp (List.mem_filter.mp ha).2
  · simp only [loadMore, if_neg Bool.false_ne_true]
    exact ((List.filter_sublist records).map (fun a => a.id)).nodup hn
  · intro la hsome
    have h2 : st.lastAction = some la := hsome
    rw [hla] at h2
    exact absurd h2 (by simp)
  · intro la hsome
    have h2 : st.lastAction = some la := hsome
    rw [hla] at h2
    exact absurd h2 (by simp)
  · intro la hsome
    have h2 : st.lastAction = some la := hsome
    rw [hla] at h2
    exact absurd h2 (by simp)

/-- Deciding Deleted preserves the session invariant. -/
theorem sessionInv_handleDelete (t : Session) (ht : SessionInv t) :
    SessionInv (handleDelete t) := by
  match hq : t.queue with
  | [] =>
    rw [show handleDelete t = t by simp [handleDelete, hq]]
    exact ht
  | h :: rest =>
    have hnodup := ht.queue_nodup
    rw [hq] at hnodup
    simp only [List.map_cons, List.nodup_cons] at hnodup
    obtain ⟨hh_notin, hnd⟩ := hnodup
    have hform : handleDelete t = ⟨rest, t.reviewed + 1, addDeleted h t.store⟩ := by
      simp [handleDelete, hq, advanceQueue]
    rw [hform]
    refine ⟨?_, hnd, ?_, ?_, ?_⟩
    · intro a ha
      obtain ⟨had, hak⟩ :=
        ht.queue_undecided a (by rw [hq]; exact List.mem_cons_of_mem h ha)
      refine ⟨?_, hak⟩
      rw [deletedIds_addDeleted]
      intro hmem
      rcases List.mem_cons.mp hmem with he | hmem2
      · exact hh_notin (he ▸ List.mem_map_of_mem (fun a => a.id) ha)
      · exact had hmem2
    · intro la hsome
      have h2 : some (LastAction.mk ActionType.deleted h) = some la := hsome
      rw [← Option.some.inj h2]
      exact hh_notin
    · intro la hsome
      have h2 : some (LastAction.mk ActionType.deleted h) = some la := hsome
      rw [← Option.some.inj h2]
      refine ⟨fun _ => ?_, fun hty => absurd hty (by simp)⟩
      rw [deletedIds_addDeleted]
      exact List.mem_cons_self _ _
    · intro la hsome
      have h2 : some (LastAction.mk ActionType.deleted h) = some la := hsome
      rw [← Option.some.inj h2]
      refine ⟨fun _ => ?_, fun hty => absurd hty (by simp)⟩
      exact (ht.queue_undecided h (by rw [hq]; exact List.mem_cons_self h rest)).2

/-- Deciding Kept preserves the session invariant. -/
theorem sessionInv_handleKeep (t : Session) (ht : SessionInv t) :
    SessionInv (handleKeep t) := by
  match hq : t.queue with
  | [] =>
    rw [show handleKeep t = t by simp [handleKeep, hq]]
    exact ht
  | h :: rest =>
    have hnodup := ht.queue_nodup
    rw [hq] at hnodup
    simp only [List.map_cons, List.nodup_cons] at hnodup
    obtain ⟨hh_notin, hnd⟩ := hnodup
    have hform : handleKeep t = ⟨rest, t.reviewed + 1, addKept h t.store⟩ := by
      simp [handleKeep, hq, advanceQueue]
    rw [hform]
    refine ⟨?_, hnd, ?_, ?_, ?_⟩
    · intro a ha
      obtain ⟨had, hak⟩ :=
        ht.queue_undecided a (by rw [hq]; exact List.mem_cons_of_mem h ha)
      refine ⟨had, ?_⟩
      rw [keptIds_addKept_eq]
      intro hmem
      rcases List.mem_append.mp hmem with h1 | h2
      · exact hak h1
      · have he : a.id = h.id := by simpa using h2
        exact hh_notin (he ▸ List.mem_map_of_mem (fun a => a.id) ha)
    · intro la hsome
      have h2 : some (LastAction.mk ActionType.kept h) = some la := hsome
      rw [← Option.some.inj h2]
      exact hh_notin
    · intro la hsome
      have h2 : some (LastAction.mk ActionType.kept h) = some la := hsome
      rw [← Option.some.inj h2]
      refine ⟨fun hty => absurd hty (by simp), fun _ => ?_⟩
      rw [keptIds_addKept_eq]
      exact List.mem_append_right _ (by simp)
    · intro la hsome
      have h2 : some (LastAction.mk ActionType.kept h) = some la := hsome
      rw [← Option.some.inj h2]
      refine ⟨fun hty => absurd hty (by simp), fun _ => ?_⟩
      exact (ht.queue_undecided h (by rw [hq]; exact List.mem_cons_self h rest)).1

/-- Skipping preserves the session invariant. -/
theorem sessionInv_handleSkip (t : Session) (ht : SessionInv t) :
    SessionInv (handleSkip t) := by
  match hq : t.queue with
  | [] =>
    rw [show handleSkip t = t by simp [handleSkip, hq]]
    exact ht
  | h :: rest =>
    have hform : handleSkip t = ⟨rest ++ [h], t.reviewed, t.store⟩ := by
      simp [handleSkip, hq]
    rw [hform]
    have hperm : (List.map (fun a => a.id) (rest ++ [h])).Perm
        (List.map (fun a => a.id) (h :: rest)) := by
      simp [List.perm_append_singleton]
    refine ⟨?_, ?_, ?_, ht.la_recorded, ht.la_exclusive⟩
    · intro a ha
      apply ht.queue_undecided a
      rw [hq]
      rcases List.mem_append.mp ha with h1 | h2
      · exact List.mem_cons_of_mem h h1
      · have he : a = h := by simpa using h2
        exact he ▸ List.mem_cons_self h rest
    · have hn := ht.queue_nodup
      rw [hq] at hn
      exact hperm.nodup_iff.mpr hn
    · intro la hsome
      have hout := ht.la_out_of_queue la hsome
      rw [hq] at hout
      intro hmem
      exact hout (hperm.mem_iff.mp hmem)

/-- Undo preserves the session invariant. -/
theorem sessionInv_handleUndo (t : Session) (ht : SessionInv t) :
    SessionInv (handleUndo t) := by
  match hla : t.store.lastAction with
  | none =>
    rw [show handleUndo t = t by simp [handleUndo, hla]]
    exact ht
  | some ⟨ActionType.deleted, p⟩ =>
    have hout := ht.la_out_of_queue _ hla
    have hexc := ht.la_exclusive _ hla
    have hform : handleUndo t = ⟨p :: t.queue, t.reviewed - 1,
        ⟨t.store.deletedAssets.filter (fun a => a.id != p.id),
          t.store.keptIds, none⟩⟩ := by
      simp [handleUndo, hla, undoLast]
    rw [hform]
    refine ⟨?_, ?_, ?_, ?_, ?_⟩
    · intro a ha
      rcases List.mem_cons.mp ha with rfl | ha2
      · exact ⟨not_mem_map_id_filter_self a.id t.store.deletedAssets, hexc.1 rfl⟩
      · obtain ⟨had, hak⟩ := ht.queue_undecided a ha2
        exact ⟨fun hmem => had (mem_map_id_of_mem_filter hmem), hak⟩
    · simp only [List.map_cons]
      exact List.nodup_cons.mpr ⟨hout, ht.queue_nodup⟩
    · intro la2 hsome
      exact absurd hsome (by simp)
    · intro la2 hsome
      exact absurd hsome (by simp)
    · intro la2 hsome
      exact absurd hsome (by simp)
  | some ⟨ActionType.kept, p⟩ =>
    have hout := ht.la_out_of_queue _ hla
    have hexc := ht.la_exclusive _ hla
    have hform : handleUndo t = ⟨p :: t.queue, t.reviewed - 1,
        ⟨t.store.deletedAssets,
          t.store.keptIds.filter (fun i => i != p.id), none⟩⟩ := by
      simp [handleUndo, hla, undoLast]
    rw [hform]
    refine ⟨?_, ?_, ?_, ?_, ?_⟩
    · intro a ha
      rcases List.mem_cons.mp ha with rfl | ha2
      · exact ⟨hexc.2 rfl, not_mem_filter_self a.id t.store.keptIds⟩
      · obtain ⟨had, hak⟩ := ht.queue_undecided a ha2
        exact ⟨had, fun hmem => hak (List.mem_filter.mp hmem).1⟩
    · simp only [List.map_cons]
      exact List.nodup_cons.mpr ⟨hout, ht.queue_nodup⟩
    · intro la2 hsome
      exact absurd hsome (by simp)
    · intro la2 hsome
      exact absurd hsome (by simp)
    · intro la2 hsome
      exact absurd hsome (by simp)

/-- A fresh pagination append preserves the session invariant. -/
theorem sessionInv_append (t : Session) (records : List StoredAsset)
    (ht : SessionInv t)
    (hf1 : (records.map (fun a => a.id)).Nodup)
    (hf2 : ∀ a ∈ records, a.id ∉ t.queue.map (fun b => b.id)) :
    SessionInv (loadMore true records t) := by
  have hform : loadMore true records t =
      ⟨t.queue ++ records.filter (fun a => undecidedB t.store a),
        t.reviewed, t.store⟩ := by
    simp [loadMore]
  rw [hform]
  refine ⟨?_, ?_, ?_, ht.la_recorded, ht.la_exclusive⟩
  · intro a ha
    rcases List.mem_append.mp ha with h1 | h2
    · exact ht.queue_undecided a h1
    · exact (undecidedB_eq_true t.store a).mp (List.mem_filter.mp h2).2
  · rw [List.map_append]
    refine List.Nodup.append ht.queue_nodup
      (((List.filter_sublist records).map (fun a => a.id)).nodup hf1) ?_
    intro x hx1 hx2
    obtain ⟨a, haF, rfl⟩ := List.mem_map.mp hx2
    exact hf2 a (List.mem_of_mem_filter haF) hx1
  · intro la hsome
    have hout := ht.la_out_of_queue la hsome
    have hrec := ht.la_recorded la hsome
    rw [List.map_append]
    intro hmem
    rcases List.mem_append.mp hmem with h1 | h2
    · exact hout h1
    · obtain ⟨a, haF, heq⟩ := List.mem_map.mp h2
      obtain ⟨hfa, hfk⟩ := (undecidedB_eq_true t.store a).mp (List.mem_filter.mp haF).2
      cases hT : la.type with
      | deleted =>
        rw [heq] at hfa
        exact hfa (hrec.1 hT)
      | kept =>
        rw [heq] at hfk
        exact hfk (hrec.2 hT)

/-- Every session operation whose append (if any) is fresh preserves the
session invariant. -/
theorem sessionInv_step (t : Session) (op : SessionOp) (ht : SessionInv t)
    (hf : freshFor t op) : SessionInv (sessionStep t op) := by
  cases op with
  | delete => exact sessionInv_handleDelete t ht
  | keep => exact sessionInv_handleKeep t ht
  | skip => exact sessionInv_handleSkip t ht
  | undo => exact sessionInv_handleUndo t ht
  | append records => exact sessionInv_append t records ht hf.1 hf.2

/-- The session invariant propagates along fresh reachability. -/
theorem sessionInv_reachable (s t : Session) (h : ReachableFresh s t)
    (hs : SessionInv s) : SessionInv t := by
  induction h with
  | refl => exact hs
  | step t op h hf ih => exact sessionInv_step t op ih hf

/-- **C3 (amended)** — starting from a session whose queue was loaded with
the decided-id filter applied (from an undo-free store) on a page of
pairwise-distinct ids, every state reachable by decide/skip/undo and
fresh pagination appends (pages of pairwise-distinct ids not already in
the queue) has a queue containing no record whose id is in the deleted
list or the kept-id list; and `appendPage` adds to the tail exactly the
input records whose id is in neither list. -/
theorem queue_excludes_decided_fresh (records : List StoredAsset) (st : Store)
    (hla : st.lastAction = none)
    (hn : (records.map (fun a => a.id)).Nodup)
    (t : Session)
    (hr : ReachableFresh (loadMore false records ⟨[], 0, st⟩) t) :
    (∀ a ∈ t.queue, a.id ∉ deletedIds t.store ∧ a.id ∉ t.store.keptIds) ∧
    ∀ rs : List StoredAsset,
      (loadMore true rs t).queue =
        t.queue ++ rs.filter (fun a => undecidedB t.store a) := by
  have hinv := sessionInv_reachable _ t hr (sessionInv_initial records st hla hn)
  exact ⟨hinv.queue_undecided, fun rs => rfl⟩

/-- Witness for the amended C3: load two photos, decide Deleted on the
first; the remaining queued photo is decided in neither list. -/
theorem queue_excludes_decided_fresh_witness :
    emptyStore.lastAction = none ∧
    (([mkAsset "a" 0 1 1, mkAsset "b" 1 1 1] : List StoredAsset).map
      (fun a => a.id)).Nodup ∧
    (mkAsset "b" 1 1 1).id ∉ deletedIds
      (sessionStep (loadMore false [mkAsset "a" 0 1 1, mkAsset "b" 1 1 1]
        ⟨[], 0, emptyStore⟩) SessionOp.delete).store ∧
    (mkAsset "b" 1 1 1).id ∉
      (sessionStep (loadMore false [mkAsset "a" 0 1 1, mkAsset "b" 1 1 1]
        ⟨[], 0, emptyStore⟩) SessionOp.delete).store.keptIds := by
  have hreach : ReachableFresh
      (loadMore false [mkAsset "a" 0 1 1, mkAsset "b" 1 1 1] ⟨[], 0, emptyStore⟩)
      (sessionStep (loadMore false [mkAsset "a" 0 1 1, mkAsset "b" 1 1 1]
        ⟨[], 0, emptyStore⟩) SessionOp.delete) :=
    ReachableFresh.step _ _ SessionOp.delete (ReachableFresh.refl _) trivial
  have h := (queue_excludes_decided_fresh
    [mkAsset "a" 0 1 1, mkAsset "b" 1 1 1] emptyStore rfl (by decide) _ hreach).1
    (mkAsset "b" 1 1 1) (by decide)
  exact ⟨rfl, by decide, h.1, h.2⟩

end SwipeAndClean
